import Mathlib

/-!
Verification of the `tree-status` repair tool
(`src/tools/tree-status/src/main.rs`) against its natural-language
specification.  The Rust code is shallowly embedded: machine `i64` values
are modelled by `Int` (the sequence numbers handled by the tool are small
database counters, far from the 64-bit boundary), `u64` by `Nat`,
`Vec` by `List`, and fallible or panicking code paths by explicit result
types.  External collaborators (the RPC client, the borsh header decoder
from the `spl-account-compression` dependency, the redis messenger) are
modelled as parameters or as explicit input data, never as stubs of code
that lives in the repository itself.
-/

namespace TreeStatus

/-! ## Range building (`build_seq_ranges`, main.rs lines 612-648)

The Rust function runs two passes over an ascending list of missing
sequence numbers: a contiguity pass that run-length-compresses the list
into closed ranges, and a join pass that merges ranges separated by at
most `maximum_join_gap`.  `contigLoop` embeds the first `for` loop
(lines 620-628) with its accumulator vector, `joinLoop` the second
(lines 636-644). -/

/-- The contiguity loop of `build_seq_ranges`: iterate over the remaining
input with the current run `[s, e]` open and `acc` holding the ranges
pushed so far (`ranges.push` becomes `acc ++ [(s, e)]`).  On exit the
open run is pushed (line 629). -/
def contigLoop : List Int → Int → Int → List (Int × Int) → List (Int × Int)
  | [], s, e, acc => acc ++ [(s, e)]
  | num :: rest, s, e, acc =>
      if e + 1 = num then contigLoop rest s num acc
      else contigLoop rest num num (acc ++ [(s, e)])

/-- Constant from line 633: `let maximum_join_gap: i32 = 10`. -/
def maximum_join_gap : Int := 10

/-- The join loop of `build_seq_ranges` (lines 636-644): `(s, e)` is the
accumulator range `(current_start, current_end)`; merging replaces the
accumulator end with the merged range's end. -/
def joinLoop : List (Int × Int) → Int → Int → List (Int × Int) → List (Int × Int)
  | [], s, e, acc => acc ++ [(s, e)]
  | (st, en) :: rest, s, e, acc =>
      if e + maximum_join_gap ≥ st then joinLoop rest s en acc
      else joinLoop rest st en (acc ++ [(s, e)])

/-- The contiguity pass: seeds the run at `seqs[0]` (lines 618-619) and
runs the first loop over the remaining elements.  (For empty input the
enclosing function has already returned the empty list, line 614-616.) -/
def build_contiguous_ranges (seqs : List Int) : List (Int × Int) :=
  match seqs with
  | [] => []
  | x :: rest => contigLoop rest x x []

/-- The join pass: seeds the accumulator with `ranges[0]` (line 635) and
runs the second loop over the remaining ranges. -/
def join_ranges (ranges : List (Int × Int)) : List (Int × Int) :=
  match ranges with
  | [] => []
  | (s, e) :: rest => joinLoop rest s e []

/-- Function `build_seq_ranges` (lines 612-648): early return on empty input,
then the contiguity pass followed by the join pass. -/
def build_seq_ranges (seqs : List Int) : List (Int × Int) :=
  if seqs.isEmpty then [] else join_ranges (build_contiguous_ranges seqs)

/-- Bool test for membership of an integer in a closed range. -/
def inRange (x : Int) (r : Int × Int) : Bool :=
  decide (r.1 ≤ x ∧ x ≤ r.2)

/-! ## Leaf-index conversion (`node_idx_to_leaf_idx`, main.rs lines 1067-1069)

`fn node_idx_to_leaf_idx(index: i64, tree_height: u32) -> i64 \x7b
index - 2i64.pow(tree_height) \x7d`.  The node index addresses a complete
binary tree whose leaf layer starts at node `2^tree_height`. -/

def node_idx_to_leaf_idx (index : Int) (tree_height : Nat) : Int :=
  index - 2 ^ tree_height

/-! ## The ordered collector of `read_tree` (main.rs lines 893-916)

The collector receives `(id, sig, seqs)` triples from the concurrent
fetch workers.  Worker ids are handed out by a shared atomic counter, so
for `N` results the ids are exactly `0 .. N-1`, while arrival order at
the channel is an arbitrary permutation.  Per arrival the loop inserts
the result into a `HashMap` keyed by id and then — with a single `if
let`, not a drain loop — removes and emits the entry for `next_id` if it
is present, incrementing `next_id`.  After the channel closes, the
remaining buffered entries are sorted by id and emitted (lines 907-911).
Payloads accompany ids unchanged, so the model tracks ids only; the
buffer is modelled as the list of buffered ids (`HashMap` keys). -/

structure ReadTreeCollector where
  next_id : Nat
  buffered : List Nat
  emitted : List Nat
  deriving DecidableEq, Repr

/-- One iteration of the `while let Some((id, sig, seqs)) = print_rx.recv()`
loop body: `map.insert(id, ..)` then `if let Some(..) = map.remove(&next_id)
\x7b print; next_id += 1 \x7d`. -/
def collectorStep (st : ReadTreeCollector) (id : Nat) : ReadTreeCollector :=
  let m := id :: st.buffered
  if st.next_id ∈ m then
    { next_id := st.next_id + 1
      buffered := m.erase st.next_id
      emitted := st.emitted ++ [st.next_id] }
  else
    { st with buffered := m }

/-- The receive loop, processing arrivals in order. -/
def collectorLoop (st : ReadTreeCollector) : List Nat → ReadTreeCollector
  | [] => st
  | id :: rest => collectorLoop (collectorStep st id) rest

/-- State of the collector after the receive loop, starting from
`next_id = 0` with empty buffer. -/
def read_tree_collect (arrivals : List Nat) : ReadTreeCollector :=
  collectorLoop ⟨0, [], []⟩ arrivals

/-- The post-loop flush (lines 907-911): collect the leftover buffer into
a vector, sort it by id, and emit in that order. -/
def collectorFlush (st : ReadTreeCollector) : List Nat :=
  st.emitted ++ st.buffered.insertionSort (· ≤ ·)

/-- The complete emission sequence of `read_tree`'s collector: the ids
emitted during the loop followed by the sorted flush. -/
def read_tree_output (arrivals : List Nat) : List Nat :=
  collectorFlush (read_tree_collect arrivals)

/-! ### Collector invariant -/

/-- Loop invariant of the collector: the ids emitted so far are exactly
`0 .. next_id - 1` in order, the buffer holds exactly the processed ids
not yet emitted, without duplicates, and every id below `next_id` has
been processed. -/
def CollectorInv (st : ReadTreeCollector) (processed : List Nat) : Prop :=
  st.emitted = List.range st.next_id ∧
  (∀ x, x ∈ st.buffered ↔ x ∈ processed ∧ st.next_id ≤ x) ∧
  st.buffered.Nodup ∧
  (∀ x, x < st.next_id → x ∈ processed)

/-! ## Fetch-and-forward workers (`send_txn`, main.rs lines 579-610, and
the worker loop, lines 548-561)

`send_txn` fetches a transaction by signature through
`rpc_tx_with_retries` with `RPC_GET_TXN_RETRIES = 5`, drops it (returning
`Ok`) if the transaction failed on-chain or has no meta, and otherwise
serializes and forwards it to the redis stream; any error propagates
through `?`.  The worker loop (line 553-560) runs
`runtime.block_on(send_txn(sig, ..)).unwrap()` per signature: an `Err`
return panics the worker thread. -/

/-- The `meta.status` of a fetched transaction: `status_is_err` is
`meta.status.is_err()`. -/
structure TxnMeta where
  status_is_err : Bool
  deriving DecidableEq, Repr

/-- A transaction as returned by a successful fetch; `meta` may be absent. -/
structure FetchedTxn where
  meta : Option TxnMeta
  deriving DecidableEq, Repr

/-- Modelled from the spec: the outcome of `rpc_tx_with_retries` (defined
in the repository's `txn_forwarder` crate, which is not among the source
files): the fetch retries a bounded number of times and, once the retry
count is exhausted, yields an error (the spec's `FetchError`).  The
outcome is supplied to the embedded `send_txn` as data. -/
abbrev FetchReply := Except String FetchedTxn

inductive SendOutcome
  | dropped
  | forwarded
  deriving DecidableEq, Repr

/-- Function `send_txn` (lines 579-610) given the outcomes of its three external
effects: the fetch reply, whether flatbuffer serialization succeeds
(line 601), and whether the redis `send` succeeds (line 606). -/
def send_txn (fetched : FetchReply) (serialize_ok stream_ok : Bool) :
    Except String SendOutcome :=
  match fetched with
  | .error e => .error e
  | .ok txn =>
    match txn.meta with
    | none => .ok .dropped
    | some meta =>
      if meta.status_is_err then .ok .dropped
      else if serialize_ok = false then .error ("failed to serialize transaction")
      else if stream_ok = false then .error ("messenger send failed")
      else .ok .forwarded

/-- How a fetch-and-forward worker thread ends: either its input queue is
exhausted, or `.unwrap()` on an `Err` from `send_txn` panicked it.  In
both cases `processed` counts the signatures handled before that point. -/
inductive WorkerOutcome
  | completed (processed : Nat)
  | panicked (processed : Nat)
  deriving DecidableEq, Repr

/-- The external outcomes one signature's processing will encounter. -/
structure SigTask where
  fetched : FetchReply
  serialize_ok : Bool
  stream_ok : Bool

/-- The worker loop `for sig in s_recv.iter() \x7b ...
block_on(send_txn(..)).unwrap() \x7d` (lines 553-560). -/
def txn_worker_loop : List SigTask → Nat → WorkerOutcome
  | [], n => .completed n
  | t :: rest, n =>
    match send_txn t.fetched t.serialize_ok t.stream_ok with
    | .error _ => .panicked n
    | .ok _ => txn_worker_loop rest (n + 1)

/-! ## Commitment levels (claim C5)

`RPC_TXN_CONFIG` (lines 70-77) and the identical per-call `CONFIG` of
`process_tx` (lines 980-986) request transactions at the `Finalized`
commitment level; the account fetch of `get_onchain_tree_seq` (line 730)
passes `CommitmentConfig::confirmed()`. -/

inductive CommitmentLevel
  | processed
  | confirmed
  | finalized
  deriving DecidableEq, Repr

structure CommitmentConfig where
  commitment : CommitmentLevel
  deriving DecidableEq, Repr

inductive UiTransactionEncoding
  | base64
  deriving DecidableEq, Repr

structure RpcTransactionConfig where
  encoding : Option UiTransactionEncoding
  commitment : Option CommitmentConfig
  max_supported_transaction_version : Option Nat
  deriving DecidableEq, Repr

/-- Constant `RPC_TXN_CONFIG` (lines 71-77), used by `send_txn` for repair fetches. -/
def RPC_TXN_CONFIG : RpcTransactionConfig :=
  ⟨some .base64, some ⟨.finalized⟩, some 0⟩

/-- The `CONFIG` constant inside `process_tx` (lines 980-986), used for
audit fetches. -/
def process_tx_config : RpcTransactionConfig :=
  ⟨some .base64, some ⟨.finalized⟩, some 0⟩

/-- The commitment passed to `get_account_with_commitment` in
`get_onchain_tree_seq` (line 730): `CommitmentConfig::confirmed()`. -/
def get_onchain_tree_seq_commitment : CommitmentConfig :=
  ⟨.confirmed⟩

/-! ## Chain-state reader (`get_onchain_tree_seq`, main.rs lines 727-749)

The function fetches the account, errors if it is absent, then calls
`account.data.split_at_mut(CONCURRENT_MERKLE_TREE_HEADER_SIZE_V1)` —
which *panics* when the data is shorter than the header size — decodes
the header (`?` on failure), computes the tree-body size (`?` on
failure), calls `rest.split_at_mut(merkle_tree_size)` — which panics when
the remainder is shorter — and finally reads `tree_bytes[0..8]` (which
panics when the body is shorter than 8 bytes) as a little-endian `u64`.
The borsh decoder `ConcurrentMerkleTreeHeader::try_from_slice` and
`merkle_tree_get_size` come from the `spl-account-compression`
dependency and are taken as parameters; the header-size constant is the
dependency's fixed value. -/

def CONCURRENT_MERKLE_TREE_HEADER_SIZE_V1 : Nat := 54

/-- Outcome of `get_onchain_tree_seq`: an `anyhow` error return, a panic
(out-of-bounds slice), or the parsed sequence counter. -/
inductive ChainSeqResult
  | errored (msg : String)
  | panicked
  | ok (seq : Nat)
  deriving DecidableEq, Repr

/-- Conversion `u64::from_le_bytes` over a list of byte values. -/
def u64_from_le_bytes (bs : List Nat) : Nat :=
  bs.foldr (fun b acc => b + 256 * acc) 0

/-- Function `get_onchain_tree_seq` (lines 727-749), given the header decoder and
size function of the dependency and the fetched account data (`none` when
the account does not exist). -/
def get_onchain_tree_seq {Header : Type}
    (try_from_slice : List Nat → Except String Header)
    (merkle_tree_get_size : Header → Except String Nat)
    (account : Option (List Nat)) : ChainSeqResult :=
  match account with
  | none => .errored ("No account found")
  | some data =>
    if data.length < CONCURRENT_MERKLE_TREE_HEADER_SIZE_V1 then .panicked
    else
      match try_from_slice (data.take CONCURRENT_MERKLE_TREE_HEADER_SIZE_V1) with
      | .error e => .errored e
      | .ok header =>
        match merkle_tree_get_size header with
        | .error e => .errored e
        | .ok size =>
          if (data.drop CONCURRENT_MERKLE_TREE_HEADER_SIZE_V1).length < size then
            .panicked
          else if size < 8 then .panicked
          else .ok (u64_from_le_bytes
            (((data.drop CONCURRENT_MERKLE_TREE_HEADER_SIZE_V1).take size).take 8))

/-! ## Inter-stage queues of the repair pipeline (claim C7)

`find_and_forward_txns_for_missing_seqs` creates its two inter-stage
queues with `crossbeam::channel::unbounded()` (lines 501-502): the range
queue `(r_sender, r_recv)` between the range producer and the signature
resolvers, and the signature queue `(s_sender, s_recv)` between the
resolvers and the fetch-and-forward workers.  A crossbeam channel's
capacity is `Some(cap)` for `bounded(cap)` and `None` for `unbounded()`,
and a send on an unbounded channel never blocks. -/

/-- A crossbeam channel's configuration: `capacity = none` models
`unbounded()`, `capacity = some cap` models `bounded(cap)`. -/
structure ChannelConfig where
  capacity : Option Nat
  deriving DecidableEq, Repr

/-- Constructor `crossbeam::channel::unbounded()`. -/
def crossbeam_unbounded : ChannelConfig := ⟨none⟩

/-- Line 501: `let (r_sender, r_recv) = unbounded();`. -/
def range_queue : ChannelConfig := crossbeam_unbounded

/-- Line 502: `let (s_sender, s_recv) = unbounded();`. -/
def signature_queue : ChannelConfig := crossbeam_unbounded

/-- Whether a send on the channel blocks (or must fail fast) given the
current number of buffered items: only a bounded channel at capacity
does. -/
def send_blocks (c : ChannelConfig) (occupancy : Nat) : Bool :=
  match c.capacity with
  | none => false
  | some cap => decide (cap ≤ occupancy)

/-! ### Lemmas about the contiguity pass -/

theorem contigLoop_eq (l : List Int) (s e : Int) (acc : List (Int × Int)) :
    contigLoop l s e acc = acc ++ contigLoop l s e [] := by
  induction l generalizing s e acc with
  | nil => simp [contigLoop]
  | cons num rest ih =>
    by_cases h : e + 1 = num
    · rw [contigLoop, if_pos h, contigLoop, if_pos h, ih s num acc]
    · rw [contigLoop, if_neg h, contigLoop, if_neg h, ih num num (acc ++ [(s, e)]),
        ih num num ([] ++ [(s, e)]), List.nil_append, List.append_assoc]

theorem contigLoop_cons (num : Int) (rest : List Int) (s e : Int) :
    contigLoop (num :: rest) s e [] =
      if e + 1 = num then contigLoop rest s num []
      else (s, e) :: contigLoop rest num num [] := by
  by_cases h : e + 1 = num
  · rw [contigLoop, if_pos h, if_pos h]
  · rw [contigLoop, if_neg h, if_neg h, List.nil_append, contigLoop_eq,
      List.singleton_append]

theorem contigLoop_ne_nil (l : List Int) (s e : Int) : contigLoop l s e [] ≠ [] := by
  induction l generalizing s e with
  | nil => simp [contigLoop]
  | cons num rest ih =>
    rw [contigLoop_cons]
    by_cases h : e + 1 = num
    · simpa [h] using ih s num
    · simp [h]

/-- Every range produced by the contiguity loop starts at or after `s`
and is nonempty (start ≤ end). -/
theorem contigLoop_start_le (l : List Int) (s e : Int) (hse : s ≤ e)
    (hch : List.Chain' (· < ·) (e :: l)) :
    ∀ r ∈ contigLoop l s e [], s ≤ r.1 ∧ r.1 ≤ r.2 := by
  induction l generalizing s e with
  | nil =>
    intro r hr
    simp only [contigLoop, List.nil_append, List.mem_singleton] at hr
    subst hr
    exact ⟨le_refl s, hse⟩
  | cons num rest ih =>
    rw [List.chain'_cons] at hch
    obtain ⟨hlt, hch'⟩ := hch
    intro r hr
    rw [contigLoop_cons] at hr
    by_cases h : e + 1 = num
    · rw [if_pos h] at hr
      exact ih s num (le_trans hse (le_of_lt hlt)) hch' r hr
    · rw [if_neg h] at hr
      rcases List.mem_cons.mp hr with hr | hr
      · subst hr; exact ⟨le_refl s, hse⟩
      · have := ih num num (le_refl num) hch' r hr
        exact ⟨le_trans hse (le_trans (le_of_lt hlt) this.1), this.2⟩

/-- Ranges produced by the contiguity loop are strictly ordered and
pairwise disjoint: each range ends strictly before the next begins. -/
theorem contigLoop_pairwise (l : List Int) (s e : Int) (hse : s ≤ e)
    (hch : List.Chain' (· < ·) (e :: l)) :
    (contigLoop l s e []).Pairwise (fun a b => a.2 < b.1) := by
  induction l generalizing s e with
  | nil => simp [contigLoop]
  | cons num rest ih =>
    rw [List.chain'_cons] at hch
    obtain ⟨hlt, hch'⟩ := hch
    rw [contigLoop_cons]
    by_cases h : e + 1 = num
    · rw [if_pos h]
      exact ih s num (le_trans hse (le_of_lt hlt)) hch'
    · rw [if_neg h]
      refine List.pairwise_cons.mpr ⟨fun r hr => ?_, ih num num (le_refl num) hch'⟩
      exact lt_of_lt_of_le hlt (contigLoop_start_le rest num num (le_refl num) hch' r hr).1

/-- Completeness of the contiguity loop: every integer of the conceptual
input (the open run `[s, e]` together with the remaining elements) is
covered by some produced range. -/
theorem contigLoop_cover (l : List Int) (s e : Int) (hse : s ≤ e)
    (hch : List.Chain' (· < ·) (e :: l)) (x : Int)
    (hx : (s ≤ x ∧ x ≤ e) ∨ x ∈ l) :
    ∃ r ∈ contigLoop l s e [], r.1 ≤ x ∧ x ≤ r.2 := by
  induction l generalizing s e with
  | nil =>
    rcases hx with hx | hx
    · exact ⟨(s, e), by simp [contigLoop], hx⟩
    · simp at hx
  | cons num rest ih =>
    rw [List.chain'_cons] at hch
    obtain ⟨hlt, hch'⟩ := hch
    rw [contigLoop_cons]
    by_cases h : e + 1 = num
    · rw [if_pos h]
      refine ih s num (le_trans hse (le_of_lt hlt)) hch' ?_
      rcases hx with ⟨h1, h2⟩ | hx
      · exact Or.inl ⟨h1, le_trans h2 (le_of_lt hlt)⟩
      · rcases List.mem_cons.mp hx with hx | hx
        · subst hx; exact Or.inl ⟨le_trans hse (le_of_lt hlt), le_refl x⟩
        · exact Or.inr hx
    · rw [if_neg h]
      rcases hx with ⟨h1, h2⟩ | hx
      · exact ⟨(s, e), List.mem_cons_self _ _, h1, h2⟩
      · rcases List.mem_cons.mp hx with hx | hx
        · subst hx
          obtain ⟨r, hr, hxr⟩ :=
            ih x x (le_refl x) hch' (Or.inl ⟨le_refl x, le_refl x⟩)
          exact ⟨r, List.mem_cons_of_mem _ hr, hxr⟩
        · obtain ⟨r, hr, hxr⟩ := ih num num (le_refl num) hch' (Or.inr hx)
          exact ⟨r, List.mem_cons_of_mem _ hr, hxr⟩

/-- Soundness of the contiguity loop: an integer covered by a produced
range belongs to the conceptual input. -/
theorem contigLoop_sound (l : List Int) (s e : Int)
    (hch : List.Chain' (· < ·) (e :: l)) :
    ∀ r ∈ contigLoop l s e [], ∀ x : Int, r.1 ≤ x → x ≤ r.2 →
      (s ≤ x ∧ x ≤ e) ∨ x ∈ l := by
  induction l generalizing s e with
  | nil =>
    intro r hr x h1 h2
    simp only [contigLoop, List.nil_append, List.mem_singleton] at hr
    subst hr
    exact Or.inl ⟨h1, h2⟩
  | cons num rest ih =>
    rw [List.chain'_cons] at hch
    obtain ⟨hlt, hch'⟩ := hch
    intro r hr x h1 h2
    rw [contigLoop_cons] at hr
    by_cases h : e + 1 = num
    · rw [if_pos h] at hr
      rcases ih s num hch' r hr x h1 h2 with ⟨ha, hb⟩ | hx
      · by_cases hxe : x ≤ e
        · exact Or.inl ⟨ha, hxe⟩
        · have : x = num := by omega
          exact Or.inr (this ▸ List.mem_cons_self _ _)
      · exact Or.inr (List.mem_cons_of_mem _ hx)
    · rw [if_neg h] at hr
      rcases List.mem_cons.mp hr with hr | hr
      · subst hr; exact Or.inl ⟨h1, h2⟩
      · rcases ih num num hch' r hr x h1 h2 with ⟨ha, hb⟩ | hx
        · have : x = num := le_antisymm hb ha
          exact Or.inr (this ▸ List.mem_cons_self _ _)
        · exact Or.inr (List.mem_cons_of_mem _ hx)

/-- The endpoints of every range produced by the contiguity loop are
elements of the conceptual input. -/
theorem contigLoop_endpoints (l : List Int) (s e : Int) (S : List Int)
    (hs : s ∈ S) (he : e ∈ S) (hl : ∀ y ∈ l, y ∈ S) :
    ∀ r ∈ contigLoop l s e [], r.1 ∈ S ∧ r.2 ∈ S := by
  induction l generalizing s e with
  | nil =>
    intro r hr
    simp only [contigLoop, List.nil_append, List.mem_singleton] at hr
    subst hr
    exact ⟨hs, he⟩
  | cons num rest ih =>
    intro r hr
    have hnum : num ∈ S := hl num (List.mem_cons_self _ _)
    have hl' : ∀ y ∈ rest, y ∈ S := fun y hy => hl y (List.mem_cons_of_mem _ hy)
    rw [contigLoop_cons] at hr
    by_cases h : e + 1 = num
    · rw [if_pos h] at hr
      exact ih s num hs hnum hl' r hr
    · rw [if_neg h] at hr
      rcases List.mem_cons.mp hr with hr | hr
      · subst hr; exact ⟨hs, he⟩
      · exact ih num num hnum hnum hl' r hr

/-- In a pairwise-disjoint ordered list of ranges, any integer lies in at
most one range. -/
theorem countP_le_one_of_pairwise (rs : List (Int × Int)) (x : Int)
    (hp : rs.Pairwise (fun a b => a.2 < b.1)) : rs.countP (inRange x) ≤ 1 := by
  induction rs with
  | nil => simp
  | cons r rest ih =>
    rw [List.pairwise_cons] at hp
    obtain ⟨hhead, hrest⟩ := hp
    rw [List.countP_cons]
    by_cases hx : inRange x r = true
    · have hzero : rest.countP (inRange x) = 0 := by
        refine List.countP_eq_zero.mpr fun r' hr' => ?_
        have hlt := hhead r' hr'
        simp only [inRange, decide_eq_true_eq] at hx ⊢
        intro hmem
        have : x < x := lt_of_le_of_lt hx.2 (lt_of_lt_of_le hlt hmem.1)
        exact lt_irrefl x this
      simp [hzero, hx]
    · simp only [hx, if_false]
      simpa using ih hrest

/-! ### Lemmas about the join pass -/

theorem joinLoop_eq (l : List (Int × Int)) (s e : Int) (acc : List (Int × Int)) :
    joinLoop l s e acc = acc ++ joinLoop l s e [] := by
  induction l generalizing s e acc with
  | nil => simp [joinLoop]
  | cons r rest ih =>
    obtain ⟨st, en⟩ := r
    by_cases h : e + maximum_join_gap ≥ st
    · rw [joinLoop, if_pos h, joinLoop, if_pos h, ih s en acc]
    · rw [joinLoop, if_neg h, joinLoop, if_neg h, ih st en (acc ++ [(s, e)]),
        ih st en ([] ++ [(s, e)]), List.nil_append, List.append_assoc]

theorem joinLoop_cons (st en : Int) (rest : List (Int × Int)) (s e : Int) :
    joinLoop ((st, en) :: rest) s e [] =
      if e + maximum_join_gap ≥ st then joinLoop rest s en []
      else (s, e) :: joinLoop rest st en [] := by
  by_cases h : e + maximum_join_gap ≥ st
  · rw [joinLoop, if_pos h, if_pos h]
  · rw [joinLoop, if_neg h, if_neg h, List.nil_append, joinLoop_eq,
      List.singleton_append]

/-- Every range produced by the join loop starts at or after `s` and is
nonempty, provided the incoming ranges are nonempty and ordered. -/
theorem joinLoop_start_le (l : List (Int × Int)) (s e : Int) (hse : s ≤ e)
    (hv : ∀ r ∈ l, r.1 ≤ r.2)
    (hp : ((s, e) :: l).Pairwise (fun a b => a.2 < b.1)) :
    ∀ r ∈ joinLoop l s e [], s ≤ r.1 ∧ r.1 ≤ r.2 := by
  induction l generalizing s e with
  | nil =>
    intro r hr
    simp only [joinLoop, List.nil_append, List.mem_singleton] at hr
    subst hr
    exact ⟨le_refl s, hse⟩
  | cons q rest ih =>
    obtain ⟨st, en⟩ := q
    rw [List.pairwise_cons] at hp
    obtain ⟨hhead, hp'⟩ := hp
    have hest : e < st := hhead (st, en) (List.mem_cons_self _ _)
    have hsten : st ≤ en := hv (st, en) (List.mem_cons_self _ _)
    have hv' : ∀ r ∈ rest, r.1 ≤ r.2 := fun r hr => hv r (List.mem_cons_of_mem _ hr)
    have hptail : ((st, en) :: rest).Pairwise (fun a b => a.2 < b.1) := hp'
    intro r hr
    rw [joinLoop_cons] at hr
    by_cases h : e + maximum_join_gap ≥ st
    · rw [if_pos h] at hr
      have hsen : s ≤ en := le_trans hse (le_trans (le_of_lt hest) hsten)
      have hpmerge : ((s, en) :: rest).Pairwise (fun a b => a.2 < b.1) := by
        rw [List.pairwise_cons] at hptail ⊢
        exact ⟨hptail.1, hptail.2⟩
      exact ih s en hsen hv' hpmerge r hr
    · rw [if_neg h] at hr
      rcases List.mem_cons.mp hr with hr | hr
      · subst hr; exact ⟨le_refl s, hse⟩
      · have := ih st en hsten hv' hptail r hr
        exact ⟨le_trans hse (le_trans (le_of_lt hest) this.1), this.2⟩

/-- The joined ranges remain strictly ordered and pairwise disjoint. -/
theorem joinLoop_pairwise (l : List (Int × Int)) (s e : Int) (hse : s ≤ e)
    (hv : ∀ r ∈ l, r.1 ≤ r.2)
    (hp : ((s, e) :: l).Pairwise (fun a b => a.2 < b.1)) :
    (joinLoop l s e []).Pairwise (fun a b => a.2 < b.1) := by
  induction l generalizing s e with
  | nil => simp [joinLoop]
  | cons q rest ih =>
    obtain ⟨st, en⟩ := q
    rw [List.pairwise_cons] at hp
    obtain ⟨hhead, hp'⟩ := hp
    have hest : e < st := hhead (st, en) (List.mem_cons_self _ _)
    have hsten : st ≤ en := hv (st, en) (List.mem_cons_self _ _)
    have hv' : ∀ r ∈ rest, r.1 ≤ r.2 := fun r hr => hv r (List.mem_cons_of_mem _ hr)
    rw [joinLoop_cons]
    by_cases h : e + maximum_join_gap ≥ st
    · rw [if_pos h]
      have hsen : s ≤ en := le_trans hse (le_trans (le_of_lt hest) hsten)
      have hpmerge : ((s, en) :: rest).Pairwise (fun a b => a.2 < b.1) := by
        rw [List.pairwise_cons] at hp' ⊢
        exact ⟨hp'.1, hp'.2⟩
      exact ih s en hsen hv' hpmerge
    · rw [if_neg h]
      refine List.pairwise_cons.mpr ⟨fun r hr => ?_, ih st en hsten hv' hp'⟩
      exact lt_of_lt_of_le hest (joinLoop_start_le rest st en hsten hv' hp' r hr).1

/-- The join loop never loses coverage: anything covered by the incoming
accumulator range or by a remaining range is covered by a joined range. -/
theorem joinLoop_cover (l : List (Int × Int)) (s e : Int) (hse : s ≤ e)
    (hv : ∀ r ∈ l, r.1 ≤ r.2)
    (hp : ((s, e) :: l).Pairwise (fun a b => a.2 < b.1)) (x : Int)
    (hx : ∃ r ∈ (s, e) :: l, r.1 ≤ x ∧ x ≤ r.2) :
    ∃ r ∈ joinLoop l s e [], r.1 ≤ x ∧ x ≤ r.2 := by
  induction l generalizing s e with
  | nil =>
    obtain ⟨r, hr, hxr⟩ := hx
    simp only [List.mem_singleton] at hr
    subst hr
    exact ⟨(s, e), by simp [joinLoop], hxr⟩
  | cons q rest ih =>
    obtain ⟨st, en⟩ := q
    rw [List.pairwise_cons] at hp
    obtain ⟨hhead, hp'⟩ := hp
    have hest : e < st := hhead (st, en) (List.mem_cons_self _ _)
    have hsten : st ≤ en := hv (st, en) (List.mem_cons_self _ _)
    have hv' : ∀ r ∈ rest, r.1 ≤ r.2 := fun r hr => hv r (List.mem_cons_of_mem _ hr)
    rw [joinLoop_cons]
    by_cases h : e + maximum_join_gap ≥ st
    · rw [if_pos h]
      have hsen : s ≤ en := le_trans hse (le_trans (le_of_lt hest) hsten)
      have hpmerge : ((s, en) :: rest).Pairwise (fun a b => a.2 < b.1) := by
        rw [List.pairwise_cons] at hp' ⊢
        exact ⟨hp'.1, hp'.2⟩
      refine ih s en hsen hv' hpmerge ?_
      obtain ⟨r, hr, hxr⟩ := hx
      rcases List.mem_cons.mp hr with hr | hr
      · subst hr
        exact ⟨(s, en), List.mem_cons_self _ _, hxr.1,
          le_trans hxr.2 (le_trans (le_of_lt hest) hsten)⟩
      rcases List.mem_cons.mp hr with hr | hr
      · subst hr
        exact ⟨(s, en), List.mem_cons_self _ _,
          le_trans (le_trans hse (le_of_lt hest)) hxr.1, hxr.2⟩
      · exact ⟨r, List.mem_cons_of_mem _ hr, hxr⟩
    · rw [if_neg h]
      obtain ⟨r, hr, hxr⟩ := hx
      rcases List.mem_cons.mp hr with hr | hr
      · subst hr
        exact ⟨(s, e), List.mem_cons_self _ _, hxr⟩
      · obtain ⟨r', hr', hxr'⟩ := ih st en hsten hv' hp' ⟨r, hr, hxr⟩
        exact ⟨r', List.mem_cons_of_mem _ hr', hxr'⟩

/-- The endpoints of every joined range are endpoints of incoming ranges
(and hence input elements). -/
theorem joinLoop_endpoints (l : List (Int × Int)) (s e : Int) (S : List Int)
    (hs : s ∈ S) (he : e ∈ S) (hl : ∀ r ∈ l, r.1 ∈ S ∧ r.2 ∈ S) :
    ∀ r ∈ joinLoop l s e [], r.1 ∈ S ∧ r.2 ∈ S := by
  induction l generalizing s e with
  | nil =>
    intro r hr
    simp only [joinLoop, List.nil_append, List.mem_singleton] at hr
    subst hr
    exact ⟨hs, he⟩
  | cons q rest ih =>
    obtain ⟨st, en⟩ := q
    have hq := hl (st, en) (List.mem_cons_self _ _)
    have hl' : ∀ r ∈ rest, r.1 ∈ S ∧ r.2 ∈ S :=
      fun r hr => hl r (List.mem_cons_of_mem _ hr)
    intro r hr
    rw [joinLoop_cons] at hr
    by_cases h : e + maximum_join_gap ≥ st
    · rw [if_pos h] at hr
      exact ih s en hs hq.2 hl' r hr
    · rw [if_neg h] at hr
      rcases List.mem_cons.mp hr with hr | hr
      · subst hr; exact ⟨hs, he⟩
      · exact ih st en hq.1 hq.2 hl' r hr

/-- Claim C1: for every ascending list of distinct integers, the
contiguity pass of `build_seq_ranges` partitions the input exactly —
every input integer lies in exactly one output range, every integer
contained in an output range is an input element, and the empty input
yields the empty range list. -/
theorem C1_contiguity_pass_partitions (seqs : List Int)
    (hsorted : List.Chain' (· < ·) seqs) :
    (∀ x ∈ seqs, (build_contiguous_ranges seqs).countP (inRange x) = 1) ∧
    (∀ r ∈ build_contiguous_ranges seqs,
      ∀ x : Int, r.1 ≤ x → x ≤ r.2 → x ∈ seqs) ∧
    build_contiguous_ranges [] = [] := by
  refine ⟨?_, ?_, rfl⟩
  · intro x hx
    cases seqs with
    | nil => simp at hx
    | cons x0 rest =>
      have hcover := contigLoop_cover rest x0 x0 (le_refl x0) hsorted x ?_
      · have hp := contigLoop_pairwise rest x0 x0 (le_refl x0) hsorted
        have hle := countP_le_one_of_pairwise (contigLoop rest x0 x0 []) x hp
        have hge : 0 < (contigLoop rest x0 x0 []).countP (inRange x) := by
          obtain ⟨r, hr, h1, h2⟩ := hcover
          refine List.countP_pos_iff.mpr ⟨r, hr, ?_⟩
          simp [inRange, h1, h2]
        show (build_contiguous_ranges (x0 :: rest)).countP (inRange x) = 1
        simp only [build_contiguous_ranges]
        omega
      · rcases List.mem_cons.mp hx with hx | hx
        · subst hx; exact Or.inl ⟨le_refl x, le_refl x⟩
        · exact Or.inr hx
  · intro r hr x h1 h2
    cases seqs with
    | nil => simp [build_contiguous_ranges] at hr
    | cons x0 rest =>
      simp only [build_contiguous_ranges] at hr
      rcases contigLoop_sound rest x0 x0 hsorted r hr x h1 h2 with ⟨ha, hb⟩ | hx
      · have hx0 : x = x0 := le_antisymm hb ha
        exact hx0 ▸ List.mem_cons_self _ _
      · exact List.mem_cons_of_mem _ hx

/-- Witness for C1 at the concrete ascending input `[1, 2, 5, 6]`. -/
theorem C1_contiguity_pass_partitions_w :
    List.Chain' (· < ·) ([1, 2, 5, 6] : List Int) ∧
    ((∀ x ∈ ([1, 2, 5, 6] : List Int),
        (build_contiguous_ranges [1, 2, 5, 6]).countP (inRange x) = 1) ∧
     (∀ r ∈ build_contiguous_ranges [1, 2, 5, 6],
        ∀ x : Int, r.1 ≤ x → x ≤ r.2 → x ∈ ([1, 2, 5, 6] : List Int)) ∧
     build_contiguous_ranges [] = []) :=
  ⟨by simp [List.chain'_cons], C1_contiguity_pass_partitions [1, 2, 5, 6]
    (by simp [List.chain'_cons])⟩

/-- Claim C2: the join pass merges the next contiguous range into the
accumulator exactly when `accumulator.end + maximum_join_gap ≥ next.start`
with `maximum_join_gap = 10`; on the input `[1,2,3,7,8,15]` the contiguity
pass yields `[(1,3), (7,8), (15,15)]` and the joined output is `[(1,15)]`. -/
theorem C2_join_gap_rule :
    (∀ s1 e1 s2 e2 : Int, join_ranges [(s1, e1), (s2, e2)] =
      if e1 + maximum_join_gap ≥ s2 then [(s1, e2)]
      else [(s1, e1), (s2, e2)]) ∧
    maximum_join_gap = 10 ∧
    build_contiguous_ranges [1, 2, 3, 7, 8, 15] = [(1, 3), (7, 8), (15, 15)] ∧
    build_seq_ranges [1, 2, 3, 7, 8, 15] = [(1, 15)] := by
  refine ⟨?_, rfl, by decide, by decide⟩
  intro s1 e1 s2 e2
  by_cases h : e1 + maximum_join_gap ≥ s2
  · simp [join_ranges, joinLoop, h]
  · simp [join_ranges, joinLoop, h]

/-- Claim C10: on every ascending list of distinct integers the final
output of `build_seq_ranges` (after the join pass) covers every input
integer, has all range endpoints drawn from the input, and lists its
ranges in ascending, pairwise-disjoint order. -/
theorem C10_joined_output_no_loss (seqs : List Int)
    (hsorted : List.Chain' (· < ·) seqs) :
    (∀ x ∈ seqs, ∃ r ∈ build_seq_ranges seqs, r.1 ≤ x ∧ x ≤ r.2) ∧
    (∀ r ∈ build_seq_ranges seqs, r.1 ∈ seqs ∧ r.2 ∈ seqs) ∧
    (build_seq_ranges seqs).Pairwise (fun a b => a.2 < b.1) := by
  cases seqs with
  | nil =>
    exact ⟨fun x hx => absurd hx (by simp),
      fun r hr => absurd hr (by simp [build_seq_ranges]),
      by simp [build_seq_ranges]⟩
  | cons x0 rest =>
    obtain ⟨r1, l', hckind⟩ := List.exists_cons_of_ne_nil (contigLoop_ne_nil rest x0 x0)
    obtain ⟨s1, e1⟩ := r1
    have hstart := contigLoop_start_le rest x0 x0 (le_refl x0) hsorted
    have hpair := contigLoop_pairwise rest x0 x0 (le_refl x0) hsorted
    have hends := contigLoop_endpoints rest x0 x0 (x0 :: rest)
      (List.mem_cons_self _ _) (List.mem_cons_self _ _)
      (fun y hy => List.mem_cons_of_mem _ hy)
    rw [hckind] at hstart hpair hends
    have hse1 : s1 ≤ e1 := (hstart (s1, e1) (List.mem_cons_self _ _)).2
    have hv : ∀ r ∈ l', r.1 ≤ r.2 :=
      fun r hr => (hstart r (List.mem_cons_of_mem _ hr)).2
    have hjoin_eq : build_seq_ranges (x0 :: rest) = joinLoop l' s1 e1 [] := by
      show join_ranges (build_contiguous_ranges (x0 :: rest)) = _
      simp only [build_contiguous_ranges]
      rw [hckind]
      rfl
    refine ⟨?_, ?_, ?_⟩
    · intro x hx
      rw [hjoin_eq]
      refine joinLoop_cover l' s1 e1 hse1 hv hpair x ?_
      have hc := contigLoop_cover rest x0 x0 (le_refl x0) hsorted x ?_
      · rw [hckind] at hc; exact hc
      · rcases List.mem_cons.mp hx with hx | hx
        · subst hx; exact Or.inl ⟨le_refl x, le_refl x⟩
        · exact Or.inr hx
    · intro r hr
      rw [hjoin_eq] at hr
      refine joinLoop_endpoints l' s1 e1 (x0 :: rest) ?_ ?_ ?_ r hr
      · exact (hends (s1, e1) (List.mem_cons_self _ _)).1
      · exact (hends (s1, e1) (List.mem_cons_self _ _)).2
      · exact fun r' hr' => hends r' (List.mem_cons_of_mem _ hr')
    · rw [hjoin_eq]
      exact joinLoop_pairwise l' s1 e1 hse1 hv hpair

/-- Witness for C10 at the concrete ascending input `[1, 2, 5, 20]`. -/
theorem C10_joined_output_no_loss_w :
    List.Chain' (· < ·) ([1, 2, 5, 20] : List Int) ∧
    ((∀ x ∈ ([1, 2, 5, 20] : List Int),
        ∃ r ∈ build_seq_ranges [1, 2, 5, 20], r.1 ≤ x ∧ x ≤ r.2) ∧
     (∀ r ∈ build_seq_ranges [1, 2, 5, 20],
        r.1 ∈ ([1, 2, 5, 20] : List Int) ∧ r.2 ∈ ([1, 2, 5, 20] : List Int)) ∧
     (build_seq_ranges [1, 2, 5, 20]).Pairwise (fun a b => a.2 < b.1)) :=
  ⟨by simp [List.chain'_cons], C10_joined_output_no_loss [1, 2, 5, 20]
    (by simp [List.chain'_cons])⟩

/-- Claim C9: for every tree height `h` and every `k` in `[0, 2^h)`, the
leaf-index conversion applied to node index `2^h + k` yields `k`; in
particular `k = 0` maps to the leftmost leaf and `k = 2^h - 1` to the
rightmost. -/
theorem C9_leaf_index_formula (h : Nat) (k : Int) (hk0 : 0 ≤ k)
    (hk1 : k < 2 ^ h) :
    node_idx_to_leaf_idx (2 ^ h + k) h = k ∧
    node_idx_to_leaf_idx (2 ^ h + 0) h = 0 ∧
    node_idx_to_leaf_idx (2 ^ h + (2 ^ h - 1)) h = 2 ^ h - 1 := by
  refine ⟨?_, ?_, ?_⟩ <;> simp [node_idx_to_leaf_idx]

/-- Witness for C9 at `h = 5`, `k = 17`. -/
theorem C9_leaf_index_formula_w :
    (0 : Int) ≤ 17 ∧ (17 : Int) < 2 ^ 5 ∧
    (node_idx_to_leaf_idx (2 ^ 5 + 17) 5 = 17 ∧
     node_idx_to_leaf_idx (2 ^ 5 + 0) 5 = 0 ∧
     node_idx_to_leaf_idx (2 ^ 5 + (2 ^ 5 - 1)) 5 = 2 ^ 5 - 1) :=
  ⟨by decide, by decide, C9_leaf_index_formula 5 17 (by decide) (by decide)⟩

theorem collectorStep_inv (st : ReadTreeCollector) (processed : List Nat)
    (id : Nat) (hinv : CollectorInv st processed) (hfresh : id ∉ processed) :
    CollectorInv (collectorStep st id) (processed ++ [id]) := by
  obtain ⟨hem, hbuf, hnd, hlt⟩ := hinv
  have hid_ge : st.next_id ≤ id := by
    by_contra hcon
    push_neg at hcon
    exact hfresh (hlt id hcon)
  have hid_notbuf : id ∉ st.buffered := fun hmem => hfresh ((hbuf id).mp hmem).1
  have hmnd : (id :: st.buffered).Nodup := List.nodup_cons.mpr ⟨hid_notbuf, hnd⟩
  simp only [collectorStep]
  by_cases hnext : st.next_id ∈ id :: st.buffered
  · rw [if_pos hnext]
    dsimp only [CollectorInv]
    refine ⟨?_, ?_, ?_, ?_⟩
    · simp [hem, List.range_succ]
    · intro x
      constructor
      · intro hx
        have hx' := (List.Nodup.mem_erase_iff hmnd).mp hx
        obtain ⟨hne, hxm⟩ := hx'
        rcases List.mem_cons.mp hxm with hxm | hxm
        · subst hxm
          exact ⟨List.mem_append_right _ (List.mem_singleton_self _), by omega⟩
        · obtain ⟨hxp, hxge⟩ := (hbuf x).mp hxm
          exact ⟨List.mem_append_left _ hxp, by omega⟩
      · rintro ⟨hxp, hxge⟩
        refine (List.Nodup.mem_erase_iff hmnd).mpr ⟨by omega, ?_⟩
        rcases List.mem_append.mp hxp with hxp | hxp
        · exact List.mem_cons_of_mem _ ((hbuf x).mpr ⟨hxp, by omega⟩)
        · rw [List.mem_singleton] at hxp
          subst hxp
          exact List.mem_cons_self _ _
    · exact List.Nodup.erase _ hmnd
    · intro x hx
      by_cases hxlt : x < st.next_id
      · exact List.mem_append_left _ (hlt x hxlt)
      · have hxeq : x = st.next_id := by omega
        rw [hxeq]
        rcases List.mem_cons.mp hnext with hn | hn
        · rw [hn]; exact List.mem_append_right _ (List.mem_singleton_self _)
        · exact List.mem_append_left _ ((hbuf st.next_id).mp hn).1
  · rw [if_neg hnext]
    have hidne : id ≠ st.next_id := fun h => hnext (h ▸ List.mem_cons_self _ _)
    dsimp only [CollectorInv]
    refine ⟨hem, ?_, hmnd, ?_⟩
    · intro x
      constructor
      · intro hx
        rcases List.mem_cons.mp hx with hx | hx
        · subst hx
          exact ⟨List.mem_append_right _ (List.mem_singleton_self _), hid_ge⟩
        · obtain ⟨hxp, hxge⟩ := (hbuf x).mp hx
          exact ⟨List.mem_append_left _ hxp, hxge⟩
      · rintro ⟨hxp, hxge⟩
        rcases List.mem_append.mp hxp with hxp | hxp
        · exact List.mem_cons_of_mem _ ((hbuf x).mpr ⟨hxp, hxge⟩)
        · rw [List.mem_singleton] at hxp
          subst hxp
          exact List.mem_cons_self _ _
    · exact fun x hx => List.mem_append_left _ (hlt x hx)

theorem collectorLoop_inv (arrivals : List Nat) :
    ∀ (processed : List Nat) (st : ReadTreeCollector),
      CollectorInv st processed → (processed ++ arrivals).Nodup →
      CollectorInv (collectorLoop st arrivals) (processed ++ arrivals) := by
  induction arrivals with
  | nil =>
    intro processed st h _
    simpa [collectorLoop] using h
  | cons id rest ih =>
    intro processed st h hnd
    have hfresh : id ∉ processed := by
      rw [List.nodup_append] at hnd
      exact fun hmem => hnd.2.2 hmem (List.mem_cons_self _ _)
    have h' := collectorStep_inv st processed id h hfresh
    have hnd' : ((processed ++ [id]) ++ rest).Nodup := by
      simpa [List.append_assoc] using hnd
    have := ih (processed ++ [id]) (collectorStep st id) h' hnd'
    simpa [collectorLoop, List.append_assoc] using this

/-- After processing any duplicate-free arrival list the invariant holds
with respect to that list. -/
theorem read_tree_collect_inv (arrivals : List Nat) (hnd : arrivals.Nodup) :
    CollectorInv (read_tree_collect arrivals) arrivals := by
  have hinit : CollectorInv ⟨0, [], []⟩ [] := by
    refine ⟨rfl, fun x => by simp, List.nodup_nil, fun x hx => ?_⟩
    dsimp only at hx
    omega
  simpa using collectorLoop_inv arrivals [] ⟨0, [], []⟩ hinit (by simpa using hnd)

/-- Counterexample to claim C3: for `N = 3` results arriving in the fully
reversed order `[2, 1, 0]`, the reorder buffer still holds two entries
after the last arrival has been processed, so it does not drain
completely on arrival processing alone. -/
theorem C3_cex_buffer_not_empty_after_last_arrival :
    (read_tree_collect [2, 1, 0]).buffered = [1, 2] ∧
    (read_tree_collect [2, 1, 0]).buffered ≠ [] := by
  constructor <;> decide

/-- Claim C3 (amended): for every `N` and every permutation in which the
`N` results tagged `0 .. N-1` arrive, the collector's complete emission
sequence — the ids emitted during the receive loop followed by the
post-loop flush that sorts and emits the leftover buffer — is exactly
`0, 1, ..., N-1` in strictly ascending order.  The loop emits at most one
buffered entry per arrival, so the buffer need not be empty right after
the last arrival; it is emptied by the flush. -/
theorem C3_collector_emits_in_order (N : Nat) (arrivals : List Nat)
    (hperm : arrivals.Perm (List.range N)) :
    read_tree_output arrivals = List.range N := by
  have hnd : arrivals.Nodup := hperm.symm.nodup (List.nodup_range N)
  obtain ⟨hem, hbuf, hbnd, hlt⟩ := read_tree_collect_inv arrivals hnd
  have hmem : ∀ x, x ∈ arrivals ↔ x < N := by
    intro x
    rw [hperm.mem_iff, List.mem_range]
  set st := read_tree_collect arrivals with hst
  have hNle : st.next_id ≤ N := by
    by_contra hcon
    push_neg at hcon
    have : N ∈ arrivals := hlt N hcon
    exact absurd ((hmem N).mp this) (lt_irrefl N)
  have hbufmem : ∀ x, x ∈ st.buffered ↔ st.next_id ≤ x ∧ x < N := by
    intro x
    rw [hbuf x, hmem x]
    tauto
  have hsorted : st.buffered.insertionSort (· ≤ ·) =
      List.range' st.next_id (N - st.next_id) := by
    apply List.eq_of_perm_of_sorted
      (r := (· ≤ ·)) ?_ (List.sorted_insertionSort _ _) ?_
    · refine (List.perm_insertionSort _ _).trans ?_
      rw [List.perm_ext_iff_of_nodup hbnd (List.nodup_range' _ _)]
      intro x
      rw [hbufmem x, List.mem_range'_1]
      omega
    · exact (List.pairwise_lt_range' _ _).imp Nat.le_of_lt
  show collectorFlush st = List.range N
  rw [collectorFlush, hem, hsorted, List.range_eq_range']
  have : (N : Nat) - st.next_id + st.next_id = N := by omega
  calc List.range' 0 st.next_id ++ List.range' st.next_id (N - st.next_id)
      = List.range' 0 st.next_id ++ List.range' (0 + st.next_id) (N - st.next_id) := by
        rw [Nat.zero_add]
    _ = List.range' 0 (N - st.next_id + st.next_id) := List.range'_append_1 _ _ _
    _ = List.range' 0 N := by rw [this]
    _ = List.range N := (List.range_eq_range' N).symm

/-- Witness for the amended C3 at `N = 4` with arrival order `[2, 0, 3, 1]`. -/
theorem C3_collector_emits_in_order_w :
    ([2, 0, 3, 1] : List Nat).Perm (List.range 4) ∧
    read_tree_output [2, 0, 3, 1] = List.range 4 :=
  ⟨by decide, C3_collector_emits_in_order 4 [2, 0, 3, 1] (by decide)⟩

/-! ### Reorder-buffer occupancy (claim C8)

Nothing in the collector ties buffer occupancy to the fetch-worker
concurrency: the fetch workers publish onto an unbounded channel
(`mpsc::unbounded_channel()`, line 939) and never wait for the collector,
so while the result tagged 0 is outstanding every other result can arrive
and all of them stay buffered. -/

/-- Each loop iteration adds at most one entry to the buffer (one insert,
at most one removal). -/
theorem collectorStep_len (st : ReadTreeCollector) (id : Nat) :
    (collectorStep st id).buffered.length ≤ st.buffered.length + 1 := by
  simp only [collectorStep]
  by_cases hnext : st.next_id ∈ id :: st.buffered
  · rw [if_pos hnext]
    dsimp only
    calc ((id :: st.buffered).erase st.next_id).length
        ≤ (id :: st.buffered).length := ((id :: st.buffered).erase_sublist _).length_le
      _ = st.buffered.length + 1 := by simp
  · rw [if_neg hnext]
    simp

theorem collectorLoop_len (arrivals : List Nat) :
    ∀ st : ReadTreeCollector,
      (collectorLoop st arrivals).buffered.length ≤
        st.buffered.length + arrivals.length := by
  induction arrivals with
  | nil => intro st; simp [collectorLoop]
  | cons id rest ih =>
    intro st
    calc (collectorLoop (collectorStep st id) rest).buffered.length
        ≤ (collectorStep st id).buffered.length + rest.length := ih _
      _ ≤ (st.buffered.length + 1) + rest.length :=
          Nat.add_le_add_right (collectorStep_len st id) _
      _ = st.buffered.length + (id :: rest).length := by simp; omega

/-- While the result with id 0 has not arrived, `next_id` stays 0 and no
arrival is ever removed from the buffer: the buffer accumulates every
arrival. -/
theorem collectorLoop_stuck (arrivals : List Nat) :
    ∀ buf em : List Nat, 0 ∉ arrivals → 0 ∉ buf →
      collectorLoop ⟨0, buf, em⟩ arrivals = ⟨0, arrivals.reverse ++ buf, em⟩ := by
  induction arrivals with
  | nil => intro buf em _ _; simp [collectorLoop]
  | cons id rest ih =>
    intro buf em har hbuf
    have hid : id ≠ 0 := fun h => har (h ▸ List.mem_cons_self _ _)
    have hrest : 0 ∉ rest := fun h => har (List.mem_cons_of_mem _ h)
    have hstep : collectorStep ⟨0, buf, em⟩ id = ⟨0, id :: buf, em⟩ := by
      simp only [collectorStep]
      rw [if_neg]
      intro hmem
      rcases List.mem_cons.mp hmem with h | h
      · exact hid h.symm
      · exact hbuf h
    rw [collectorLoop, hstep, ih (id :: buf) em hrest (by
      intro h
      rcases List.mem_cons.mp h with h | h
      · exact hid h.symm
      · exact hbuf h)]
    simp

/-- Counterexample to claim C8: with a history of 100 results (ids
`0 .. 99`) arriving in fully reversed order, after the first 99 arrivals
`[99, 98, ..., 1]` the reorder buffer holds 99 entries — all of the
history except the still-outstanding id 0 — which is proportional to the
history size and exceeds any bound derived from worker concurrency. -/
theorem C8_cex_buffer_holds_99_of_100 :
    (read_tree_collect ((List.range' 1 99).reverse)).buffered.length = 99 := by
  have h0 : (0 : Nat) ∉ (List.range' 1 99).reverse := by
    rw [List.mem_reverse, List.mem_range'_1]
    omega
  show (collectorLoop ⟨0, [], []⟩ ((List.range' 1 99).reverse)).buffered.length = 99
  rw [collectorLoop_stuck ((List.range' 1 99).reverse) [] [] h0 (by simp)]
  simp

/-- Claim C8 (amended): the reorder buffer's occupancy is bounded only by
the number of arrivals processed so far — for every arrival order it never
exceeds the history length, and for the arrival order in which ids
`N, N-1, ..., 1` all complete before id 0, it reaches exactly `N`
(history size minus one), growing linearly with the history.  It is not
bounded by the fetch-worker concurrency. -/
theorem C8_buffer_occupancy (N : Nat) :
    (∀ arrivals : List Nat,
      (read_tree_collect arrivals).buffered.length ≤ arrivals.length) ∧
    (read_tree_collect ((List.range' 1 N).reverse)).buffered.length = N := by
  constructor
  · intro arrivals
    simpa using collectorLoop_len arrivals ⟨0, [], []⟩
  · have h0 : (0 : Nat) ∉ (List.range' 1 N).reverse := by
      rw [List.mem_reverse, List.mem_range'_1]
      omega
    show (collectorLoop ⟨0, [], []⟩ ((List.range' 1 N).reverse)).buffered.length = N
    rw [collectorLoop_stuck ((List.range' 1 N).reverse) [] [] h0 (by simp)]
    simp

theorem txn_worker_loop_ok (tasks : List SigTask) :
    ∀ n : Nat,
      (∀ t ∈ tasks, ∃ r, send_txn t.fetched t.serialize_ok t.stream_ok =
        Except.ok r) →
      txn_worker_loop tasks n = .completed (n + tasks.length) := by
  induction tasks with
  | nil => intro n _; simp [txn_worker_loop]
  | cons t rest ih =>
    intro n h
    obtain ⟨r, hr⟩ := h t (List.mem_cons_self _ _)
    rw [txn_worker_loop, hr]
    rw [ih (n + 1) fun t' ht' => h t' (List.mem_cons_of_mem _ ht')]
    simp
    omega

theorem txn_worker_loop_panics (pre : List SigTask) :
    ∀ (n : Nat) (rest : List SigTask) (msg : String) (ser so : Bool),
      (∀ t ∈ pre, ∃ r, send_txn t.fetched t.serialize_ok t.stream_ok =
        Except.ok r) →
      txn_worker_loop (pre ++ ⟨Except.error msg, ser, so⟩ :: rest) n =
        .panicked (n + pre.length) := by
  induction pre with
  | nil =>
    intro n rest msg ser so _
    rw [List.nil_append, txn_worker_loop]
    simp [send_txn]
  | cons t pre' ih =>
    intro n rest msg ser so h
    obtain ⟨r, hr⟩ := h t (List.mem_cons_self _ _)
    rw [List.cons_append, txn_worker_loop, hr]
    rw [ih (n + 1) rest msg ser so fun t' ht' => h t' (List.mem_cons_of_mem _ ht')]
    simp
    omega

/-- Counterexample to claim C4: a worker whose first signature's fetch
exhausts its retries (a `FetchError`) panics immediately — the second
signature in its queue is never processed, so the failed fetch is not
dropped-and-continued. -/
theorem C4_cex_fetch_error_panics_worker :
    txn_worker_loop
      [⟨Except.error ("FetchError"), true, true⟩,
       ⟨Except.ok ⟨some ⟨false⟩⟩, true, true⟩] 0 = .panicked 0 ∧
    txn_worker_loop
      [⟨Except.error ("FetchError"), true, true⟩,
       ⟨Except.ok ⟨some ⟨false⟩⟩, true, true⟩] 0 ≠ .completed 2 := by
  constructor <;> decide

/-- Claim C4 (amended): a transaction that is fetched successfully but
failed on-chain (or carries no meta) is dropped and the worker continues;
but a fetch that exhausts its bounded retries yields an `Err` which the
worker `.unwrap()`s, panicking the fetch-and-forward worker after its
error-free prefix and leaving the remaining signatures unprocessed —
rather than dropping the signature and continuing. -/
theorem C4_fetch_error_aborts_worker :
    (∀ ser so : Bool,
      send_txn (Except.ok ⟨none⟩) ser so = Except.ok SendOutcome.dropped ∧
      send_txn (Except.ok ⟨some ⟨true⟩⟩) ser so = Except.ok SendOutcome.dropped) ∧
    (∀ (pre rest : List SigTask) (msg : String) (ser so : Bool),
      (∀ t ∈ pre, ∃ r, send_txn t.fetched t.serialize_ok t.stream_ok =
        Except.ok r) →
      txn_worker_loop (pre ++ ⟨Except.error msg, ser, so⟩ :: rest) 0 =
        .panicked pre.length) ∧
    (∀ tasks : List SigTask,
      (∀ t ∈ tasks, ∃ r, send_txn t.fetched t.serialize_ok t.stream_ok =
        Except.ok r) →
      txn_worker_loop tasks 0 = .completed tasks.length) := by
  refine ⟨fun ser so => ⟨rfl, rfl⟩, ?_, ?_⟩
  · intro pre rest msg ser so h
    simpa using txn_worker_loop_panics pre 0 rest msg ser so h
  · intro tasks h
    simpa using txn_worker_loop_ok tasks 0 h

/-- Witness for the amended C4: a worker that drops one on-chain-failed
transaction and then hits a `FetchError` panics having processed exactly
one signature. -/
theorem C4_fetch_error_aborts_worker_w :
    txn_worker_loop
      ([⟨Except.ok ⟨some ⟨true⟩⟩, true, true⟩] ++
        ⟨Except.error ("FetchError"), true, true⟩ :: []) 0 = .panicked 1 :=
  C4_fetch_error_aborts_worker.2.1 [⟨Except.ok ⟨some ⟨true⟩⟩, true, true⟩]
    [] ("FetchError") true true
    (by
      intro t ht
      rw [List.mem_singleton] at ht
      subst ht
      exact ⟨SendOutcome.dropped, rfl⟩)

/-- Counterexample to claim C5: the account fetch that reads the on-chain
tree sequence uses the `confirmed` commitment level, not `finalized`. -/
theorem C5_cex_account_fetch_not_finalized :
    get_onchain_tree_seq_commitment.commitment = CommitmentLevel.confirmed ∧
    get_onchain_tree_seq_commitment.commitment ≠ CommitmentLevel.finalized := by
  constructor <;> decide

/-- Claim C5 (amended): both transaction-fetch configurations use the
`finalized` commitment level, but the account fetch of
`get_onchain_tree_seq` uses `confirmed`. -/
theorem C5_commitment_levels :
    RPC_TXN_CONFIG.commitment = some ⟨CommitmentLevel.finalized⟩ ∧
    process_tx_config.commitment = some ⟨CommitmentLevel.finalized⟩ ∧
    get_onchain_tree_seq_commitment.commitment = CommitmentLevel.confirmed :=
  ⟨rfl, rfl, rfl⟩

/-- Counterexample to claim C6: an existing account whose data (10 bytes)
is shorter than the expected header size makes `get_onchain_tree_seq`
panic in `split_at_mut` instead of returning an error value.  (The header
decoder is irrelevant: the panic happens before decoding.) -/
theorem C6_cex_short_account_panics :
    (List.replicate 10 (0 : Nat)).length < CONCURRENT_MERKLE_TREE_HEADER_SIZE_V1 ∧
    get_onchain_tree_seq (fun _ => Except.ok ()) (fun _ => Except.ok 8)
      (some (List.replicate 10 (0 : Nat))) = ChainSeqResult.panicked := by
  constructor <;> decide

/-- Claim C6 (amended): `get_onchain_tree_seq` returns an error value
when the account does not exist, when header decoding fails, or when the
body-size computation fails; it *panics* (slice out of bounds) when the
account data is shorter than the header size or than header plus tree
body; and under the precondition that the data is long enough and the
header decodes, it returns the little-endian 64-bit integer read from the
first 8 bytes of the tree body. -/
theorem C6_get_onchain_tree_seq_cases {Header : Type}
    (try_from_slice : List Nat → Except String Header)
    (merkle_tree_get_size : Header → Except String Nat) :
    (get_onchain_tree_seq try_from_slice merkle_tree_get_size none =
      ChainSeqResult.errored ("No account found")) ∧
    (∀ data : List Nat,
      data.length < CONCURRENT_MERKLE_TREE_HEADER_SIZE_V1 →
      get_onchain_tree_seq try_from_slice merkle_tree_get_size (some data) =
        ChainSeqResult.panicked) ∧
    (∀ (data : List Nat) (msg : String),
      CONCURRENT_MERKLE_TREE_HEADER_SIZE_V1 ≤ data.length →
      try_from_slice (data.take CONCURRENT_MERKLE_TREE_HEADER_SIZE_V1) =
        Except.error msg →
      get_onchain_tree_seq try_from_slice merkle_tree_get_size (some data) =
        ChainSeqResult.errored msg) ∧
    (∀ (data : List Nat) (header : Header) (msg : String),
      CONCURRENT_MERKLE_TREE_HEADER_SIZE_V1 ≤ data.length →
      try_from_slice (data.take CONCURRENT_MERKLE_TREE_HEADER_SIZE_V1) =
        Except.ok header →
      merkle_tree_get_size header = Except.error msg →
      get_onchain_tree_seq try_from_slice merkle_tree_get_size (some data) =
        ChainSeqResult.errored msg) ∧
    (∀ (data : List Nat) (header : Header) (size : Nat),
      CONCURRENT_MERKLE_TREE_HEADER_SIZE_V1 ≤ data.length →
      try_from_slice (data.take CONCURRENT_MERKLE_TREE_HEADER_SIZE_V1) =
        Except.ok header →
      merkle_tree_get_size header = Except.ok size →
      size ≤ (data.drop CONCURRENT_MERKLE_TREE_HEADER_SIZE_V1).length →
      8 ≤ size →
      get_onchain_tree_seq try_from_slice merkle_tree_get_size (some data) =
        ChainSeqResult.ok (u64_from_le_bytes
          (((data.drop CONCURRENT_MERKLE_TREE_HEADER_SIZE_V1).take size).take 8))) := by
  refine ⟨rfl, ?_, ?_, ?_, ?_⟩
  · intro data hlen
    simp only [get_onchain_tree_seq]
    rw [if_pos hlen]
  · intro data msg hlen hdec
    simp only [get_onchain_tree_seq]
    rw [if_neg (by omega), hdec]
  · intro data header msg hlen hdec hsize
    simp only [get_onchain_tree_seq]
    rw [if_neg (by omega), hdec]
    dsimp only
    rw [hsize]
  · intro data header size hlen hdec hsize hbody h8
    simp only [get_onchain_tree_seq]
    rw [if_neg (by omega), hdec]
    dsimp only
    rw [hsize]
    dsimp only
    rw [if_neg (by omega), if_neg (by omega)]

/-- Witness for the amended C6: a 62-byte account (54-byte header plus an
8-byte tree body of zeros) with a decoder and size function that accept
it yields sequence counter 0. -/
theorem C6_get_onchain_tree_seq_cases_w :
    CONCURRENT_MERKLE_TREE_HEADER_SIZE_V1 ≤ (List.replicate 62 (0 : Nat)).length ∧
    get_onchain_tree_seq (fun _ => Except.ok ()) (fun _ => Except.ok 8)
      (some (List.replicate 62 (0 : Nat))) =
      ChainSeqResult.ok (u64_from_le_bytes
        ((((List.replicate 62 (0 : Nat)).drop
            CONCURRENT_MERKLE_TREE_HEADER_SIZE_V1).take 8).take 8)) :=
  ⟨by decide,
    (C6_get_onchain_tree_seq_cases (fun _ => Except.ok ())
        (fun _ => Except.ok 8)).2.2.2.2
      (List.replicate 62 (0 : Nat)) () 8 (by decide) rfl rfl (by decide) (by decide)⟩

/-- Counterexample to claim C7: both inter-stage queues of the repair
pipeline are created unbounded — neither has a bounded capacity. -/
theorem C7_cex_queues_unbounded :
    range_queue.capacity = none ∧ signature_queue.capacity = none ∧
    range_queue.capacity.isSome = false ∧
    signature_queue.capacity.isSome = false := by
  refine ⟨rfl, rfl, rfl, rfl⟩

/-- Claim C7 (amended): both inter-stage queues are crossbeam *unbounded*
channels, so a producer facing any queue occupancy never blocks and items
buffer without bound. -/
theorem C7_queues_never_block :
    range_queue = crossbeam_unbounded ∧
    signature_queue = crossbeam_unbounded ∧
    (∀ occupancy : Nat, send_blocks range_queue occupancy = false ∧
      send_blocks signature_queue occupancy = false) :=
  ⟨rfl, rfl, fun _ => ⟨rfl, rfl⟩⟩

end TreeStatus

/-! Concrete sanity checks evaluating the embedded definitions. -/

example : TreeStatus.read_tree_output [2, 0, 1, 3] = [0, 1, 2, 3] := by decide

example : TreeStatus.read_tree_output [3, 2, 1, 0] = [0, 1, 2, 3] := by decide

example : (TreeStatus.read_tree_collect [3, 2, 1, 0]).buffered = [1, 2, 3] := by
  decide

example : (TreeStatus.read_tree_collect [0, 1, 2, 3]).buffered = [] := by decide

example : TreeStatus.build_contiguous_ranges [1, 2, 3, 7, 8, 15] =
    [(1, 3), (7, 8), (15, 15)] := by decide

example : TreeStatus.build_seq_ranges [1, 2, 3, 7, 8, 15] = [(1, 15)] := by decide

example : TreeStatus.build_seq_ranges [] = [] := by decide

example : TreeStatus.build_seq_ranges [4] = [(4, 4)] := by decide

example : TreeStatus.build_seq_ranges [1, 2, 30, 31, 40] = [(1, 2), (30, 40)] := by
  decide
